import Mathlib

set_option maxHeartbeats 1000000

namespace Jsdom

/-
Shallow embedding of the jsdom window-runtime slice:
`lib/jsdom/virtual-console.js` (the console router) and
`lib/jsdom/browser/Window.js` (window lifecycle, timers, XHR wrapping,
computed style).  Pure data flows become Lean functions; listener tables
and registries become explicit state.
-/

/-- JavaScript values as they flow through the virtual console: strings,
numbers, `undefined`, references to the sink/options objects handed to
`sendTo` (identified by a numeric object identity), and jsdom failure
objects carrying `stack`, `message` and `detail` fields. -/
inductive JSVal where
  | str : String → JSVal
  | num : Int → JSVal
  | undefinedVal : JSVal
  | consoleRef : Nat → JSVal
  | optionsRef : Nat → JSVal
  | errObj : String → String → JSVal → JSVal
  deriving DecidableEq

/-- Reading `e.stack` on a JS value: failure objects expose their stack
string, anything else yields `undefined`. -/
def JSVal.stackOf : JSVal → JSVal
  | .errObj s _ _ => .str s
  | _ => .undefinedVal

/-- Reading `e.detail` on a JS value. -/
def JSVal.detailOf : JSVal → JSVal
  | .errObj _ _ d => d
  | _ => .undefinedVal

/-- A recorded invocation of a sink method: which sink (by identity),
which method name, and the exact argument list. -/
structure SinkCall where
  sinkId : Nat
  method : String
  args : List JSVal
  deriving DecidableEq

/-- A listener on the router: given the emitted argument list it yields
the sink calls it performs (listeners here are pure recorders). -/
def Listener : Type := List JSVal → List SinkCall

/-- The console router state: Node's `EventEmitter` listener table as an
ordered association list from event name to listener, in registration
order. -/
structure VirtualConsole where
  listeners : List (String × Listener)

/-- The `VirtualConsole` constructor: `super()` gives an empty table and
then `this.on("error", () => { })` installs the standing no-op error
listener. -/
def VirtualConsole.new : VirtualConsole :=
  ⟨[("error", fun _ => [])]⟩

/-- Node `EventEmitter.prototype.emit`: collect the listeners registered
for `name` in registration order; if the event is `error` and there is no
listener, an exception is thrown; otherwise every listener is invoked with
the emitted argument list. -/
def emit (vc : VirtualConsole) (name : String) (args : List JSVal) :
    Except String (List SinkCall) :=
  let ls := ((vc.listeners.filter (fun p => p.1 = name)).map (fun p => p.2))
  if name = "error" ∧ ls.isEmpty then
    Except.error "Unhandled error event"
  else
    Except.ok (ls.flatMap (fun f => f args))

/-- A sink object as `sendTo` sees it: an object identity and the list of
its own property names whose values are functions, in `Object.keys`
order. -/
structure Sink where
  id : Nat
  methods : List String

/-- The options object passed to `sendTo` (when present): an object
identity plus its `omitJsdomErrors` flag. -/
structure SendToOpts where
  id : Nat
  omitJsdomErrors : Bool

/-- The value of the `arguments` object inside `sendTo` (strict mode: a
snapshot of the values actually passed at the call). -/
def sendToArguments (sink : Sink) (opts : Option SendToOpts) : List JSVal :=
  JSVal.consoleRef sink.id ::
    (match opts with
     | none => []
     | some o => [JSVal.optionsRef o.id])

/-- Whether `options.omitJsdomErrors` is truthy after the
`options === undefined` defaulting. -/
def optsOmit (opts : Option SendToOpts) : Bool :=
  match opts with
  | none => false
  | some o => o.omitJsdomErrors

/-- The `sendTo` method of `virtual-console.js`.  For each callable key
`method` of the sink it registers `this.on(method, () => {
anyConsole[method].apply(anyConsole, arguments); })`.  The listener is an
arrow function, so `arguments` is the enclosing `sendTo` invocation's
argument list, not the emitted event's: the registered listener ignores
the emitted arguments and applies `sendTo`'s own arguments.  Unless
`options.omitJsdomErrors` is truthy it also registers
`this.on("jsdomError", e => anyConsole.error(e.stack, e.detail))`. -/
def VirtualConsole.sendTo (vc : VirtualConsole) (sink : Sink)
    (opts : Option SendToOpts) : VirtualConsole :=
  let argsObj := sendToArguments sink opts
  let methodLs : List (String × Listener) :=
    sink.methods.map (fun m => (m, fun _ => [⟨sink.id, m, argsObj⟩]))
  let jsdomLs : List (String × Listener) :=
    if optsOmit opts then []
    else
      [("jsdomError", fun args =>
        let e := args.headD JSVal.undefinedVal
        [⟨sink.id, "error", [e.stackOf, e.detailOf]⟩])]
  ⟨vc.listeners ++ (methodLs ++ jsdomLs)⟩

/-- A concrete sink used to exercise the router: identity 1, one callable
key `log`. -/
def demoSink : Sink := ⟨1, ["log"]⟩

/-- A concrete sink with a callable `error` key, identity 2. -/
def demoErrSink : Sink := ⟨2, ["error"]⟩

/-- C7: emitting any event, including `error`, on a freshly constructed
router with zero attached sinks raises nothing and performs no sink
calls, because construction installs a standing no-op listener on the
`error` channel. -/
theorem emit_no_sinks_never_raises (name : String) (args : List JSVal) :
    emit VirtualConsole.new name args = Except.ok [] := by
  by_cases h : name = "error"
  · subst h
    rfl
  · simp [emit, VirtualConsole.new, List.filter, h, Ne.symm h]

/-- C1, evaluated at the failing input: attach a sink whose only callable
key is `log`, then emit `log` with argument list `["hello"]`.  The sink's
`log` method is invoked with `sendTo`'s own argument list (the sink
reference) instead of the emitted `["hello"]`, because the forwarding
listener is an arrow function whose `arguments` is `sendTo`'s. -/
theorem sendTo_forwards_sendTo_arguments_not_emitted_args :
    emit ((VirtualConsole.new).sendTo demoSink none) "log" [JSVal.str "hello"]
      = Except.ok [⟨1, "log", [JSVal.consoleRef 1]⟩]
    ∧ [JSVal.consoleRef 1] ≠ [JSVal.str "hello"] := by
  exact ⟨rfl, by decide⟩

/-- C2 counterexample: emit `jsdomError` with a failure whose stack is
`"stack-S"`, message (its description) is `"desc-D"` and detail is
`"det"`.  The sink's `error` method receives the failure's stack as first
argument, which differs from the failure's description. -/
theorem jsdomError_first_arg_is_stack_counterexample :
    emit ((VirtualConsole.new).sendTo demoErrSink none) "jsdomError"
        [JSVal.errObj "stack-S" "desc-D" (JSVal.str "det")]
      = Except.ok [⟨2, "error", [JSVal.str "stack-S", JSVal.str "det"]⟩]
    ∧ JSVal.str "stack-S" ≠ JSVal.str "desc-D" := by
  exact ⟨rfl, by decide⟩

theorem countP_jsdomError_methodLs (sink : Sink)
    (h : "jsdomError" ∉ sink.methods) (argsObj : List JSVal) :
    ((sink.methods.map (fun m =>
        ((m, fun _ => [⟨sink.id, m, argsObj⟩]) : String × Listener))).countP
      (fun p => p.1 = "jsdomError")) = 0 := by
  rw [List.countP_eq_zero]
  intro p hp
  rcases List.mem_map.mp hp with ⟨m, hm, rfl⟩
  simp only [decide_eq_true_eq]
  intro hEq
  exact h (hEq ▸ hm)

theorem filter_jsdomError_methodLs (sink : Sink)
    (h : "jsdomError" ∉ sink.methods) (argsObj : List JSVal) :
    ((sink.methods.map (fun m =>
        ((m, fun _ => [⟨sink.id, m, argsObj⟩]) : String × Listener))).filter
      (fun p => p.1 = "jsdomError")) = [] := by
  rw [List.filter_eq_nil_iff]
  intro p hp
  rcases List.mem_map.mp hp with ⟨m, hm, rfl⟩
  simp only [decide_eq_true_eq]
  intro hEq
  exact h (hEq ▸ hm)

/-- C2 amended: for a sink without a callable `jsdomError` key, attached
without `omitJsdomErrors`, emitting `jsdomError` with a failure invokes
the sink's `error` method with the failure's stack as first argument and
the failure's detail as second argument; when `omitJsdomErrors` is set,
no `jsdomError` forwarding listener is registered. -/
theorem jsdomError_forwards_stack_and_detail (sink : Sink)
    (h : "jsdomError" ∉ sink.methods) (stk msg : String) (d : JSVal) :
    emit ((VirtualConsole.new).sendTo sink none) "jsdomError"
        [JSVal.errObj stk msg d]
      = Except.ok [⟨sink.id, "error", [JSVal.str stk, d]⟩]
    ∧ ∀ oid : Nat,
      (((VirtualConsole.new).sendTo sink (some ⟨oid, true⟩)).listeners.countP
          (fun p => p.1 = "jsdomError")) = 0 := by
  constructor
  · simp only [emit, VirtualConsole.sendTo, VirtualConsole.new, optsOmit,
      List.filter_append, List.filter_cons, List.filter_nil]
    rw [filter_jsdomError_methodLs sink h]
    simp [JSVal.stackOf, JSVal.detailOf]
  · intro oid
    simp only [VirtualConsole.sendTo, VirtualConsole.new, optsOmit,
      List.countP_append, List.countP_cons, List.countP_nil]
    rw [countP_jsdomError_methodLs sink h]
    simp

/-- C2 amended, witness at a concrete sink: `demoErrSink` has no callable
`jsdomError` key, and the forwarded call carries stack and detail. -/
theorem jsdomError_forwards_stack_and_detail_witness :
    ("jsdomError" ∉ demoErrSink.methods)
    ∧ (emit ((VirtualConsole.new).sendTo demoErrSink none) "jsdomError"
          [JSVal.errObj "s" "m" (JSVal.num 3)]
        = Except.ok [⟨2, "error", [JSVal.str "s", JSVal.num 3]⟩]
      ∧ ∀ oid : Nat,
        (((VirtualConsole.new).sendTo demoErrSink (some ⟨oid, true⟩)).listeners.countP
            (fun p => p.1 = "jsdomError")) = 0) :=
  ⟨by decide, jsdomError_forwards_stack_and_detail demoErrSink (by decide) "s" "m" (JSVal.num 3)⟩

/-! Timer registry: `startTimer`, `stopTimer`, `stopAllTimers` from
`Window.js`.  The platform scheduler's opaque handles are modelled by a
counter; an invocation of a stored cancel function (`clearTimeout` or
`clearInterval`) is recorded in a log. -/

/-- Which platform cancel function a registry entry stores. -/
inductive TKind where
  | timeout
  | interval
  deriving DecidableEq

/-- State of one window's timer machinery: `registry` is `__timers`
(pairs of platform handle and stored cancel kind, in push order),
`cancelLog` records every cancel-function invocation in order, and
`nextHandle` stands for the platform scheduler's next fresh handle. -/
structure TimerSys where
  registry : List (Nat × TKind)
  cancelLog : List (TKind × Nat)
  nextHandle : Nat
  deriving DecidableEq

def TimerSys.init : TimerSys := ⟨[], [], 0⟩

/-- `startTimer(window, startFn, stopFn, callback, ms)`: call the platform
scheduler (yielding a fresh handle), push `[handle, stopFn]` onto
`__timers`, return the handle. -/
def startTimer (sys : TimerSys) (kind : TKind) : Nat × TimerSys :=
  (sys.nextHandle,
   { registry := sys.registry ++ [(sys.nextHandle, kind)],
     cancelLog := sys.cancelLog,
     nextHandle := sys.nextHandle + 1 })

/-- Scan `__timers` for the first entry with the given handle; if found,
return its kind and the registry with that entry spliced out. -/
def removeFirst : List (Nat × TKind) → Nat → Option TKind × List (Nat × TKind)
  | [], _ => (none, [])
  | e :: rest, i =>
    if e.1 = i then (some e.2, rest)
    else
      let r := removeFirst rest i
      (r.1, e :: r.2)

/-- `stopTimer(window, id)`: a no-op on `undefined`; otherwise scan for
the first matching handle, invoke its stored cancel function, splice the
entry out, and stop (silent no-op when no entry matches). -/
def stopTimer (sys : TimerSys) (id : Option Nat) : TimerSys :=
  match id with
  | none => sys
  | some i =>
    match removeFirst sys.registry i with
    | (none, _) => sys
    | (some k, reg) =>
      { registry := reg,
        cancelLog := sys.cancelLog ++ [(k, i)],
        nextHandle := sys.nextHandle }

/-- `stopAllTimers(window)`: invoke every stored cancel function, in
registry order, then reset `__timers` to the empty array. -/
def stopAllTimers (sys : TimerSys) : TimerSys :=
  { registry := [],
    cancelLog := sys.cancelLog ++ sys.registry.map (fun e => (e.2, e.1)),
    nextHandle := sys.nextHandle }

/-- One script-visible timer call: `setTimeout`/`setInterval` or
`clearTimeout`/`clearInterval` (the latter with a possibly-`undefined`
handle). -/
inductive TimerOp where
  | schedule : TKind → TimerOp
  | cancel : Option Nat → TimerOp

/-- Run a sequence of schedule/cancel calls against a timer state. -/
def runTimerOps : List TimerOp → TimerSys → TimerSys
  | [], sys => sys
  | TimerOp.schedule k :: rest, sys => runTimerOps rest (startTimer sys k).2
  | TimerOp.cancel i :: rest, sys => runTimerOps rest (stopTimer sys i)

theorem removeFirst_sublist (l : List (Nat × TKind)) (i : Nat) :
    (removeFirst l i).2.Sublist l := by
  induction l with
  | nil => simp [removeFirst]
  | cons e rest ih =>
    by_cases h : e.1 = i
    · simp [removeFirst, h]
    · simpa [removeFirst, h] using ih.cons₂ e

/-- The registry's handles always form a subsequence of the handles in
allocation order: entries appear in registration order. -/
theorem runTimerOps_registry_ordered (ops : List TimerOp) (sys : TimerSys)
    (h : (sys.registry.map Prod.fst).Sublist (List.range sys.nextHandle)) :
    (((runTimerOps ops sys).registry.map Prod.fst)).Sublist
      (List.range (runTimerOps ops sys).nextHandle) := by
  induction ops generalizing sys with
  | nil => exact h
  | cons op rest ih =>
    cases op with
    | schedule k =>
      refine ih _ ?_
      simp only [startTimer, List.map_append, List.map_cons, List.map_nil,
        List.range_succ]
      exact h.append (List.Sublist.refl _)
    | cancel i =>
      refine ih _ ?_
      cases i with
      | none => exact h
      | some j =>
        simp only [stopTimer]
        rcases hr : removeFirst sys.registry j with ⟨k?, reg⟩
        cases k? with
        | none => exact h
        | some k =>
          have hs : reg.Sublist sys.registry := by
            have := removeFirst_sublist sys.registry j
            rw [hr] at this
            exact this
          exact ((hs.map Prod.fst).trans h)

/-- C4: after any sequence of schedule/cancel calls, `stopAllTimers`
invokes the stored cancel function of every remaining registry entry, in
registration order (the registry is a subsequence of the handles in
allocation order and is flushed to the cancel log in that order), leaves
the registry empty, and a second call on the now-empty registry changes
nothing (in particular it invokes no cancel function). -/
theorem stopAllTimers_cancels_all_then_noop (ops : List TimerOp) :
    (stopAllTimers (runTimerOps ops TimerSys.init)).registry = []
    ∧ (stopAllTimers (runTimerOps ops TimerSys.init)).cancelLog
        = (runTimerOps ops TimerSys.init).cancelLog
          ++ (runTimerOps ops TimerSys.init).registry.map (fun e => (e.2, e.1))
    ∧ (∀ e ∈ (runTimerOps ops TimerSys.init).registry,
        (e.2, e.1) ∈ (stopAllTimers (runTimerOps ops TimerSys.init)).cancelLog)
    ∧ ((runTimerOps ops TimerSys.init).registry.map Prod.fst).Sublist
        (List.range (runTimerOps ops TimerSys.init).nextHandle)
    ∧ stopAllTimers (stopAllTimers (runTimerOps ops TimerSys.init))
        = stopAllTimers (runTimerOps ops TimerSys.init) := by
  refine ⟨rfl, rfl, ?_, ?_, ?_⟩
  · intro e he
    simp only [stopAllTimers, List.mem_append, List.mem_map]
    exact Or.inr ⟨e, he, rfl⟩
  · exact runTimerOps_registry_ordered ops TimerSys.init (by simp [TimerSys.init])
  · simp [stopAllTimers]

/-! Window close: `window.close()` recursively tears down the frame tree.
The frame tree's shape (indexed child slots `windowToClean[i]` for
`i < windowToClean.length`) is an immutable tree of window identities; the
per-window mutable state (document reference, timer registry) is a map
from identity. -/

/-- A frame tree: a window identity together with its child windows in
index order. -/
inductive Tree where
  | node : Nat → List Tree → Tree

def Tree.rootId : Tree → Nat
  | .node i _ => i

/-- Per-window mutable state during teardown: whether `_document` is
still attached, whether that document's `readyState` is `"complete"`, and
the window's pending timer handles (its `__timers` in push order). -/
structure WinSt where
  hasDoc : Nat → Bool
  docComplete : Nat → Bool
  timers : Nat → List Nat

/-- Observable teardown events, in order: closing the attached document,
invoking a stored timer cancel function, and the completion (return) of a
`close()` call on a window. -/
inductive CloseEv where
  | docClosed : Nat → CloseEv
  | cancelTimer : Nat → Nat → CloseEv
  | closed : Nat → CloseEv
  deriving DecidableEq

/-- The non-recursive tail of `close()` on window `i`: clear the listener
table (unobserved here), then, if a document is attached, clear its body,
reset its listeners and close it, and drop the `_document` reference;
finally `stopAllTimers` cancels every remaining registry entry. -/
def finalizeWin (i : Nat) (st : WinSt) : List CloseEv × WinSt :=
  let docEvs := if st.hasDoc i then [CloseEv.docClosed i] else []
  let cancelEvs := (st.timers i).map (fun h => CloseEv.cancelTimer i h)
  (docEvs ++ cancelEvs ++ [CloseEv.closed i],
   { hasDoc := fun j => if j = i then false else st.hasDoc j,
     docComplete := st.docComplete,
     timers := fun j => if j = i then [] else st.timers j })

/-- The `windowCleaner` recursion over a list of sibling subtrees.  For a
child `node i cs`, `windowCleaner(child)` first recurses over the child's
own children, and then calls `child.close()` (the child is never the
`currentWindow` of the enclosing `close()`), whose body runs the same
child recursion once more before finalizing the child. -/
def cleanList : List Tree → WinSt → List CloseEv × WinSt
  | [], st => ([], st)
  | Tree.node i cs :: rest, st =>
    let r1 := cleanList cs st
    let r2 := cleanList cs r1.2
    let r3 := finalizeWin i r2.2
    let r4 := cleanList rest r3.2
    (r1.1 ++ r2.1 ++ r3.1 ++ r4.1, r4.2)
termination_by l _ => sizeOf l
decreasing_by
  all_goals simp
  all_goals omega

/-- `close()` on the window rooted at `node i cs`: `windowCleaner(this)`
visits every child (skipping `this` itself), then the window's own
finalization runs. -/
def closeW : Tree → WinSt → List CloseEv × WinSt
  | Tree.node i cs, st =>
    let r1 := cleanList cs st
    let r2 := finalizeWin i r1.2
    (r1.1 ++ r2.1, r2.2)

/-- All window identities appearing in a forest. -/
def idsOfList : List Tree → List Nat
  | [] => []
  | Tree.node i cs :: rest => i :: (idsOfList cs ++ idsOfList rest)
termination_by l => sizeOf l
decreasing_by
  all_goals simp
  all_goals omega

theorem finalizeWin_preserves (i j : Nat) (st : WinSt) (h : j ≠ i) :
    (finalizeWin i st).2.hasDoc j = st.hasDoc j
    ∧ (finalizeWin i st).2.timers j = st.timers j := by
  simp [finalizeWin, h]

theorem cleanList_cons (i : Nat) (cs rest : List Tree) (st : WinSt) :
    cleanList (Tree.node i cs :: rest) st
      = ((cleanList cs st).1
          ++ (cleanList cs (cleanList cs st).2).1
          ++ (finalizeWin i (cleanList cs (cleanList cs st).2).2).1
          ++ (cleanList rest (finalizeWin i (cleanList cs (cleanList cs st).2).2).2).1,
         (cleanList rest (finalizeWin i (cleanList cs (cleanList cs st).2).2).2).2) := by
  rw [cleanList]

/-- Tearing down a forest leaves the state of any window identity outside
the forest untouched. -/
theorem cleanList_preserves (j : Nat) : (l : List Tree) → (st : WinSt) →
    j ∉ idsOfList l →
    (cleanList l st).2.hasDoc j = st.hasDoc j
    ∧ (cleanList l st).2.timers j = st.timers j
  | [], st, _ => by simp [cleanList]
  | Tree.node i cs :: rest, st, h => by
    rw [idsOfList] at h
    simp only [List.mem_cons, List.mem_append, not_or] at h
    obtain ⟨hji, hcs, hrest⟩ := h
    obtain ⟨h1d, h1t⟩ := cleanList_preserves j cs st hcs
    obtain ⟨h2d, h2t⟩ := cleanList_preserves j cs (cleanList cs st).2 hcs
    obtain ⟨hfd, hft⟩ :=
      finalizeWin_preserves i j (cleanList cs (cleanList cs st).2).2 hji
    obtain ⟨h3d, h3t⟩ :=
      cleanList_preserves j rest
        (finalizeWin i (cleanList cs (cleanList cs st).2).2).2 hrest
    rw [cleanList_cons]
    exact ⟨by rw [h3d, hfd, h2d, h1d], by rw [h3t, hft, h2t, h1t]⟩
termination_by l _ _ => sizeOf l
decreasing_by
  all_goals simp
  all_goals omega

theorem closed_mem_finalizeWin (i : Nat) (st : WinSt) :
    CloseEv.closed i ∈ (finalizeWin i st).1 := by
  simp [finalizeWin]

/-- The window a teardown event belongs to. -/
def CloseEv.winOf : CloseEv → Nat
  | .docClosed i => i
  | .cancelTimer i _ => i
  | .closed i => i

/-- Every window of a forest as a subtree, the top-level ones included:
each node of each tree, with its own children. -/
def subtreesOfList : List Tree → List Tree
  | [] => []
  | Tree.node j ds :: rest =>
    Tree.node j ds :: (subtreesOfList ds ++ subtreesOfList rest)
termination_by l => sizeOf l
decreasing_by
  all_goals simp
  all_goals omega

theorem finalizeWin_event_ids (j : Nat) (st : WinSt) :
    ∀ e ∈ (finalizeWin j st).1, e.winOf = j := by
  intro e he
  have he2 : e ∈ (if st.hasDoc j then [CloseEv.docClosed j] else [])
      ++ ((st.timers j).map (fun hd => CloseEv.cancelTimer j hd))
      ++ [CloseEv.closed j] := he
  simp only [List.mem_append] at he2
  rcases he2 with (h1 | h2) | h3
  · by_cases hd : st.hasDoc j
    · rw [if_pos hd, List.mem_singleton] at h1
      subst h1
      rfl
    · rw [if_neg hd] at h1
      exact absurd h1 (List.not_mem_nil e)
  · rcases List.mem_map.mp h2 with ⟨hd, _, rfl⟩
    rfl
  · rw [List.mem_singleton] at h3
    subst h3
    rfl

/-- Every teardown event produced by a forest belongs to a window of
that forest. -/
theorem cleanList_event_ids : (l : List Tree) → (st : WinSt) →
    ∀ e ∈ (cleanList l st).1, e.winOf ∈ idsOfList l
  | [], _ => by simp [cleanList]
  | Tree.node j ds :: rest, st => by
    intro e he
    rw [cleanList_cons] at he
    rw [idsOfList]
    simp only [List.mem_append] at he
    simp only [List.mem_cons, List.mem_append]
    rcases he with ((h1 | h2) | h3) | h4
    · exact Or.inr (Or.inl (cleanList_event_ids ds st e h1))
    · exact Or.inr (Or.inl (cleanList_event_ids ds _ e h2))
    · exact Or.inl (finalizeWin_event_ids j _ e h3)
    · exact Or.inr (Or.inr (cleanList_event_ids rest _ e h4))
termination_by l _ => sizeOf l
decreasing_by
  all_goals simp
  all_goals omega

/-- Every window of a forest, at any depth, gets a completed `close()`
call during the forest's teardown pass. -/
theorem cleanList_closes_all_ids : (l : List Tree) → (st : WinSt) →
    ∀ d ∈ idsOfList l, CloseEv.closed d ∈ (cleanList l st).1
  | [], _ => by simp [idsOfList]
  | Tree.node j ds :: rest, st => by
    intro d hd
    rw [idsOfList] at hd
    rw [cleanList_cons]
    simp only [List.mem_cons, List.mem_append] at hd
    simp only [List.mem_append]
    rcases hd with rfl | hds | hrest
    · exact Or.inl (Or.inr (closed_mem_finalizeWin d _))
    · exact Or.inl (Or.inl (Or.inl (cleanList_closes_all_ids ds st d hds)))
    · exact Or.inr (cleanList_closes_all_ids rest _ d hrest)
termination_by l _ => sizeOf l
decreasing_by
  all_goals simp
  all_goals omega

/-- A subtree's window identity, and every identity below it, lie in the
identities of the enclosing forest. -/
theorem subtree_ids_sub : (l : List Tree) → ∀ (j : Nat) (ds : List Tree),
    Tree.node j ds ∈ subtreesOfList l →
    j ∈ idsOfList l ∧ ∀ d ∈ idsOfList ds, d ∈ idsOfList l
  | [] => by
    intro j ds hmem
    rw [subtreesOfList] at hmem
    exact absurd hmem (List.not_mem_nil _)
  | Tree.node k es :: rest => by
    intro j ds hmem
    rw [subtreesOfList] at hmem
    rw [idsOfList]
    simp only [List.mem_cons, List.mem_append] at hmem
    simp only [List.mem_cons, List.mem_append]
    rcases hmem with hEq | hin | hin
    · injection hEq with h1 h2
      subst h1
      subst h2
      exact ⟨Or.inl rfl, fun d hd => Or.inr (Or.inl hd)⟩
    · obtain ⟨hj, hds⟩ := subtree_ids_sub es j ds hin
      exact ⟨Or.inr (Or.inl hj), fun d hd => Or.inr (Or.inl (hds d hd))⟩
    · obtain ⟨hj, hds⟩ := subtree_ids_sub rest j ds hin
      exact ⟨Or.inr (Or.inr hj), fun d hd => Or.inr (Or.inr (hds d hd))⟩
termination_by l => sizeOf l
decreasing_by
  all_goals simp
  all_goals omega

theorem closed_not_mem_cleanList (l : List Tree) (st : WinSt) (x : Nat)
    (h : x ∉ idsOfList l) : CloseEv.closed x ∉ (cleanList l st).1 := by
  intro hmem
  exact h (cleanList_event_ids l st (CloseEv.closed x) hmem)

theorem closed_not_mem_finalizeWin (j : Nat) (st : WinSt) (x : Nat)
    (h : x ≠ j) : CloseEv.closed x ∉ (finalizeWin j st).1 := by
  intro hmem
  exact h (finalizeWin_event_ids j st (CloseEv.closed x) hmem)

/-- An occupant of the left part of an append sits strictly before
anything that only occurs in the right part. -/
theorem indexOf_lt_of_mem_left {a b : CloseEv} {l1 l2 : List CloseEv}
    (ha : a ∈ l1) (hb : b ∉ l1) :
    (l1 ++ l2).indexOf a < (l1 ++ l2).indexOf b := by
  rw [List.indexOf_append_of_mem ha, List.indexOf_append_of_not_mem hb]
  exact Nat.lt_of_lt_of_le (List.indexOf_lt_length.mpr ha) (Nat.le_add_right _ _)

/-- Teardown order inside a forest: the first completed close of any
window strictly precedes the first completed close of its parent, at
every depth of the forest. -/
theorem cleanList_first_close_ordered : (l : List Tree) → (st : WinSt) →
    (idsOfList l).Nodup →
    ∀ (j : Nat) (ds : List Tree), Tree.node j ds ∈ subtreesOfList l →
    ∀ d ∈ idsOfList ds,
      (cleanList l st).1.indexOf (CloseEv.closed d)
        < (cleanList l st).1.indexOf (CloseEv.closed j)
  | [], _ => by
    intro _ j ds hmem d _
    rw [subtreesOfList] at hmem
    exact absurd hmem (List.not_mem_nil _)
  | Tree.node j0 ds0 :: rest, st => by
    intro hnd j ds hmem d hd
    rw [idsOfList, List.nodup_cons] at hnd
    obtain ⟨hj0, hnd2⟩ := hnd
    rw [List.nodup_append] at hnd2
    obtain ⟨hndds, hndrest, hdisj⟩ := hnd2
    rw [List.mem_append] at hj0
    push_neg at hj0
    obtain ⟨hj0ds, hj0rest⟩ := hj0
    rw [subtreesOfList] at hmem
    simp only [List.mem_cons, List.mem_append] at hmem
    rw [cleanList_cons]
    rcases hmem with hEq | hin | hin
    · injection hEq with h1 h2
      subst h1
      subst h2
      rw [List.append_assoc ((cleanList ds st).1 ++ _) _ _]
      refine indexOf_lt_of_mem_left
        (List.mem_append_left _ (cleanList_closes_all_ids ds st d hd)) ?_
      intro hmem2
      rcases List.mem_append.mp hmem2 with hmem2 | hmem2
      · exact closed_not_mem_cleanList _ _ _ hj0ds hmem2
      · exact closed_not_mem_cleanList _ _ _ hj0ds hmem2
    · obtain ⟨hjin, hdsin⟩ := subtree_ids_sub ds0 j ds hin
      have hdin : d ∈ idsOfList ds0 := hdsin d hd
      have haA : CloseEv.closed d ∈ (cleanList ds0 st).1 :=
        cleanList_closes_all_ids ds0 st d hdin
      have hbA : CloseEv.closed j ∈ (cleanList ds0 st).1 :=
        cleanList_closes_all_ids ds0 st j hjin
      rw [List.append_assoc, List.append_assoc]
      rw [List.indexOf_append_of_mem haA, List.indexOf_append_of_mem hbA]
      exact cleanList_first_close_ordered ds0 st hndds j ds hin d hd
    · obtain ⟨hjin, hdsin⟩ := subtree_ids_sub rest j ds hin
      have hdin : d ∈ idsOfList rest := hdsin d hd
      have hnotpre : ∀ x, x ∈ idsOfList rest →
          CloseEv.closed x ∉
            ((cleanList ds0 st).1 ++ (cleanList ds0 (cleanList ds0 st).2).1)
              ++ (finalizeWin j0 (cleanList ds0 (cleanList ds0 st).2).2).1 := by
        intro x hx hmem2
        have hxds0 : x ∉ idsOfList ds0 := fun hmem3 => hdisj hmem3 hx
        have hxj0 : x ≠ j0 := fun hEq => hj0rest (hEq ▸ hx)
        rcases List.mem_append.mp hmem2 with hmem2 | hmem2
        · rcases List.mem_append.mp hmem2 with hmem2 | hmem2
          · exact closed_not_mem_cleanList _ _ _ hxds0 hmem2
          · exact closed_not_mem_cleanList _ _ _ hxds0 hmem2
        · exact closed_not_mem_finalizeWin _ _ _ hxj0 hmem2
      rw [List.indexOf_append_of_not_mem (hnotpre d hdin),
        List.indexOf_append_of_not_mem (hnotpre j hjin)]
      exact Nat.add_lt_add_left
        (cleanList_first_close_ordered rest _ hndrest j ds hin d hd) _
termination_by l _ => sizeOf l
decreasing_by
  all_goals simp
  all_goals omega

/-- C3: closing a window closes every window of its frame tree before the
window itself completes closing — the root's completion is the final
trace event, every frame-tree window (children and deeper descendants
alike) completes a close strictly earlier, and the first completed close
of every window precedes the first completed close of its parent at every
depth, and precedes the root's; after `close()` returns, the root's
document reference is gone and every timer that was in its registry has
had its cancel function invoked.  The `Nodup` hypothesis rules out the
aliased or cyclic frame graphs the spec leaves undefined. -/
theorem close_children_first_doc_absent_timers_cancelled
    (i : Nat) (cs : List Tree) (st : WinSt)
    (h : (i :: idsOfList cs).Nodup) :
    (closeW (Tree.node i cs) st).1.getLast? = some (CloseEv.closed i)
    ∧ (∀ d ∈ idsOfList cs,
        CloseEv.closed d ∈ (closeW (Tree.node i cs) st).1.dropLast)
    ∧ (∀ (j : Nat) (ds : List Tree), Tree.node j ds ∈ subtreesOfList cs →
        ∀ d ∈ idsOfList ds,
          (closeW (Tree.node i cs) st).1.indexOf (CloseEv.closed d)
            < (closeW (Tree.node i cs) st).1.indexOf (CloseEv.closed j))
    ∧ (∀ d ∈ idsOfList cs,
        (closeW (Tree.node i cs) st).1.indexOf (CloseEv.closed d)
          < (closeW (Tree.node i cs) st).1.indexOf (CloseEv.closed i))
    ∧ (closeW (Tree.node i cs) st).2.hasDoc i = false
    ∧ (∀ hdl ∈ st.timers i,
        CloseEv.cancelTimer i hdl ∈ (closeW (Tree.node i cs) st).1) := by
  rw [List.nodup_cons] at h
  obtain ⟨hi, hnd⟩ := h
  have hpres := cleanList_preserves i cs st hi
  have hW : closeW (Tree.node i cs) st
      = ((cleanList cs st).1 ++ (finalizeWin i (cleanList cs st).2).1,
         (finalizeWin i (cleanList cs st).2).2) := rfl
  have htr : (finalizeWin i (cleanList cs st).2).1
      = (if (cleanList cs st).2.hasDoc i then [CloseEv.docClosed i] else [])
        ++ ((cleanList cs st).2.timers i).map (fun hd => CloseEv.cancelTimer i hd)
        ++ [CloseEv.closed i] := rfl
  have hsplit : (cleanList cs st).1 ++ (finalizeWin i (cleanList cs st).2).1
      = ((cleanList cs st).1
          ++ ((if (cleanList cs st).2.hasDoc i then [CloseEv.docClosed i] else [])
              ++ ((cleanList cs st).2.timers i).map
                  (fun hd => CloseEv.cancelTimer i hd)))
        ++ [CloseEv.closed i] := by
    rw [htr]
    simp [List.append_assoc]
  rw [hW]
  refine ⟨?_, ?_, ?_, ?_, by simp [finalizeWin], ?_⟩
  · rw [hsplit]
    simp
  · intro d hd
    rw [hsplit, List.dropLast_concat]
    exact List.mem_append_left _ (cleanList_closes_all_ids cs st d hd)
  · intro j ds hmem d hd
    obtain ⟨hjin, hdsin⟩ := subtree_ids_sub cs j ds hmem
    rw [List.indexOf_append_of_mem (cleanList_closes_all_ids cs st d (hdsin d hd)),
      List.indexOf_append_of_mem (cleanList_closes_all_ids cs st j hjin)]
    exact cleanList_first_close_ordered cs st hnd j ds hmem d hd
  · intro d hd
    exact indexOf_lt_of_mem_left (cleanList_closes_all_ids cs st d hd)
      (closed_not_mem_cleanList cs st i hi)
  · intro hdl hmem
    rw [hsplit]
    refine List.mem_append_left _
      (List.mem_append_right _ (List.mem_append_right _ ?_))
    rw [hpres.2]
    exact List.mem_map_of_mem _ hmem

/-- A window (identity 0) with two nested child frames (1 holding 2). -/
def demoFrames : List Tree := [Tree.node 1 [Tree.node 2 []]]

/-- Concrete pre-close state: every window has a document, none complete,
and the root window has two registered timers. -/
def demoWinSt : WinSt :=
  { hasDoc := fun _ => true,
    docComplete := fun _ => false,
    timers := fun j => if j = 0 then [10, 11] else [] }

/-- C3 witness: the teardown theorem applied to the two-nested-frames
window at a concrete state; the ordering conjuncts instantiate to the
grandchild (window 2) closing before its parent (window 1) and before the
root. -/
theorem close_children_first_witness :
    ((0 :: idsOfList demoFrames).Nodup)
    ∧ ((closeW (Tree.node 0 demoFrames) demoWinSt).1.getLast?
          = some (CloseEv.closed 0)
      ∧ (∀ d ∈ idsOfList demoFrames,
          CloseEv.closed d
            ∈ (closeW (Tree.node 0 demoFrames) demoWinSt).1.dropLast)
      ∧ (∀ (j : Nat) (ds : List Tree),
          Tree.node j ds ∈ subtreesOfList demoFrames →
          ∀ d ∈ idsOfList ds,
            (closeW (Tree.node 0 demoFrames) demoWinSt).1.indexOf (CloseEv.closed d)
              < (closeW (Tree.node 0 demoFrames) demoWinSt).1.indexOf (CloseEv.closed j))
      ∧ (∀ d ∈ idsOfList demoFrames,
          (closeW (Tree.node 0 demoFrames) demoWinSt).1.indexOf (CloseEv.closed d)
            < (closeW (Tree.node 0 demoFrames) demoWinSt).1.indexOf (CloseEv.closed 0))
      ∧ (closeW (Tree.node 0 demoFrames) demoWinSt).2.hasDoc 0 = false
      ∧ (∀ hdl ∈ demoWinSt.timers 0,
          CloseEv.cancelTimer 0 hdl
            ∈ (closeW (Tree.node 0 demoFrames) demoWinSt).1)) :=
  ⟨by simp [idsOfList, demoFrames],
   close_children_first_doc_absent_timers_cancelled 0 demoFrames demoWinSt
     (by simp [idsOfList, demoFrames])⟩

/-! Deferred post-construction load dispatch: the `process.nextTick`
callback installed at the end of the `Window` constructor. -/

/-- What the deferred task can do: dispatch a synthetic `load` event on
the window, or register a listener that re-dispatches the document's own
`load` event. -/
inductive LoadAct where
  | dispatchLoad : Nat → LoadAct
  | registerDocLoadListener : Nat → LoadAct
  deriving DecidableEq

/-- The deferred task body: `if (!window.document) return;` then create a
`load` event and either dispatch it now (document already complete) or
register for the document's `load`. -/
def deferredLoadTask (st : WinSt) (i : Nat) : List LoadAct :=
  if st.hasDoc i then
    if st.docComplete i then [LoadAct.dispatchLoad i]
    else [LoadAct.registerDocLoadListener i]
  else []

/-- C9: when the deferred load task runs after the window's `close()`
completed, the document reference is gone, so the task returns without
creating or dispatching any load event; on a live window whose document
is complete it does dispatch. -/
theorem deferred_load_skipped_after_close (i : Nat) (cs : List Tree) (st : WinSt) :
    deferredLoadTask (closeW (Tree.node i cs) st).2 i = []
    ∧ deferredLoadTask ⟨fun _ => true, fun _ => true, fun _ => []⟩ i
        = [LoadAct.dispatchLoad i] := by
  constructor
  · have hdoc : (closeW (Tree.node i cs) st).2.hasDoc i = false := by
      simp [closeW, finalizeWin]
    simp [deferredLoadTask, hdoc]
  · simp [deferredLoadTask]

/-! Computed style resolver: `window.getComputedStyle` walks the built-in
default stylesheet, the document's stylesheets in document order, and the
inline style last, writing declarations into one `CSSStyleDeclaration`
with last-write-wins on property-name collision. -/

/-- One CSS declaration as `setProperty` receives it: property name,
value, priority. -/
def Decl : Type := String × String × String

instance : DecidableEq Decl := by
  unfold Decl
  infer_instance

/-- A stylesheet rule: either a style rule with its `selectorText` and
declarations, or a media block (its media list and the contained rules).
A media block itself has no `selectorText`. -/
inductive CSSRule where
  | styleRule : String → List Decl → CSSRule
  | mediaRule : List String → List CSSRule → CSSRule

def StyleSheet : Type := List CSSRule

/-- An element as the resolver sees it: the selector-match primitive
(`none` models `el.matches(selector)` raising on a malformed selector),
the element's inline declarations, and the owning document's stylesheets
in document order. -/
structure Elem where
  matchesRaw : String → Option Bool
  inlineStyle : List Decl
  docSheets : List StyleSheet

/-- The `matchesDontThrow` helper: a raising match primitive is treated
as "does not match". -/
def matchesDontThrow (el : Elem) (sel : String) : Bool :=
  (el.matchesRaw sel).getD false

/-- `CSSStyleDeclaration.setProperty`: overwrite the first declaration
with the same property name, or append a new one. -/
def setProperty (cs : List Decl) (p v pr : String) : List Decl :=
  match cs with
  | [] => [(p, v, pr)]
  | d :: rest => if d.1 = p then (p, v, pr) :: rest else d :: setProperty rest p v pr

/-- `CSSStyleDeclaration.getPropertyValue`: value of the first
declaration with the given property name. -/
def getPropertyValue (cs : List Decl) (p : String) : Option String :=
  (cs.find? (fun d => d.1 = p)).map (fun d => d.2.1)

/-- State for the quote-respecting selector split: the quote character
currently open (if any), the piece being accumulated, and the finished
pieces. -/
structure SplitSt where
  inQuote : Option Char
  cur : String
  out : List String

/-- One character step of the split performed by
`selectorText.split(cssSelectorSplitRE)` with the capturing regex
`((?:[^,"']|"[^"]*"|'[^']*')+)`: commas outside quoted substrings
separate pieces; quoted substrings are kept whole. -/
def splitStep (st : SplitSt) (c : Char) : SplitSt :=
  match st.inQuote with
  | some q =>
    { inQuote := if c = q then none else some q, cur := st.cur.push c, out := st.out }
  | none =>
    if c = ',' then { inQuote := none, cur := "", out := st.out ++ [st.cur] }
    else if c = Char.ofNat 34 ∨ c = Char.ofNat 39 then
      { inQuote := some c, cur := st.cur.push c, out := st.out }
    else { inQuote := none, cur := st.cur.push c, out := st.out }

/-- Split a selector list on commas that stand outside quoted substrings;
the loop over the result skips empty pieces (and the separator pieces the
JS split interleaves). -/
def splitSelectors (s : String) : List String :=
  let r := s.toList.foldl splitStep ⟨none, "", []⟩
  r.out ++ [r.cur]

/-- Apply a rule's declarations to the result block in order:
`cs.setProperty(property, value, priority)` for each. -/
def applyDeclList (decls : List Decl) (cs : List Decl) : List Decl :=
  decls.foldl (fun acc d => setProperty acc d.1 d.2.1 d.2.2) cs

/-- The qualifying test for one branch of the split selector list: it is
non-empty, not a bare comma separator, and matches the element. -/
def branchQualifies (el : Elem) (s : String) : Bool :=
  (s != "") && ((s != ",") && matchesDontThrow el s)

/-- The branch loop inside `setPropertiesFromRule`: walk the split
selector list with a `matched` flag; a branch that is non-empty, not a
bare comma, and matches while nothing matched before applies the rule's
declarations once and sets the flag. -/
def ruleBranchLoop (el : Elem) (decls : List Decl) :
    List String → Bool → List Decl → List Decl
  | [], _, cs => cs
  | s :: rest, matched, cs =>
    if (s != "") && ((s != ",") && ((!matched) && matchesDontThrow el s)) then
      ruleBranchLoop el decls rest true (applyDeclList decls cs)
    else ruleBranchLoop el decls rest matched cs

/-- `setPropertiesFromRule`: a rule without `selectorText` (a media
block) contributes nothing; a style rule runs the branch loop over its
split selector list. -/
def setPropertiesFromRule (el : Elem) (cs : List Decl) : CSSRule → List Decl
  | CSSRule.mediaRule _ _ => cs
  | CSSRule.styleRule sel decls => ruleBranchLoop el decls (splitSelectors sel) false cs

/-- `readStylesFromStyleSheet`: rules under a media qualifier apply only
when the qualifier includes `"screen"`; unqualified rules always
apply. -/
def readStylesFromStyleSheet (el : Elem) (cs : List Decl) (sheet : StyleSheet) :
    List Decl :=
  sheet.foldl (fun acc rule =>
    match rule with
    | CSSRule.mediaRule media rules =>
      if "screen" ∈ media then
        rules.foldl (fun a r => setPropertiesFromRule el a r) acc
      else acc
    | CSSRule.styleRule sel decls =>
      setPropertiesFromRule el acc (CSSRule.styleRule sel decls)) cs

/-- `window.getComputedStyle(node)`: start from an empty declaration
block, read the built-in default stylesheet, then every document
stylesheet in document order, then apply the inline style last. -/
def getComputedStyle (defaultSheet : StyleSheet) (el : Elem) : List Decl :=
  let cs : List Decl := []
  let cs := readStylesFromStyleSheet el cs defaultSheet
  let cs := el.docSheets.foldl (fun a sh => readStylesFromStyleSheet el a sh) cs
  applyDeclList el.inlineStyle cs

/-- Modelled from the spec: the declarations a single rule contributes,
per the words of §4.5 — the declarations are applied once if any branch
of the split selector list matches the element. -/
def specRuleWrites (el : Elem) : CSSRule → List Decl
  | CSSRule.mediaRule _ _ => []
  | CSSRule.styleRule sel decls =>
    if (splitSelectors sel).any (fun s => branchQualifies el s) then decls
    else []

/-- Modelled from the spec: the declarations a stylesheet contributes, in
order — every matching unqualified rule, and every matching rule under a
media qualifier that includes `"screen"`. -/
def specSheetWrites (el : Elem) (sheet : StyleSheet) : List Decl :=
  sheet.flatMap (fun rule =>
    match rule with
    | CSSRule.mediaRule media rules =>
      if "screen" ∈ media then rules.flatMap (fun r => specRuleWrites el r)
      else []
    | CSSRule.styleRule sel decls => specRuleWrites el (CSSRule.styleRule sel decls))

/-- Modelled from the spec: the full ordered write sequence — default
stylesheet first, then the document's stylesheets in document order, then
the inline style last. -/
def specAllWrites (defaultSheet : StyleSheet) (el : Elem) : List Decl :=
  specSheetWrites el defaultSheet
    ++ el.docSheets.flatMap (fun sh => specSheetWrites el sh)
    ++ el.inlineStyle

/-- Last-write-wins over a write sequence, starting from a base value: a
later write to the property overrides anything earlier. -/
def lastWriteFrom (base : Option String) (ws : List Decl) (p : String) :
    Option String :=
  ws.foldl (fun acc d => if d.1 = p then some d.2.1 else acc) base

/-- The value the spec assigns to a property: the last write to it in the
ordered write sequence, if any. -/
def lastWrite (ws : List Decl) (p : String) : Option String :=
  lastWriteFrom none ws p

theorem getPropertyValue_cons (d : Decl) (rest : List Decl) (q : String) :
    getPropertyValue (d :: rest) q
      = if d.1 = q then some d.2.1 else getPropertyValue rest q := by
  by_cases h : d.1 = q <;> simp [getPropertyValue, List.find?, h]

theorem getPropertyValue_setProperty (cs : List Decl) (p v pr q : String) :
    getPropertyValue (setProperty cs p v pr) q
      = if p = q then some v else getPropertyValue cs q := by
  induction cs with
  | nil =>
    by_cases h : p = q <;> simp [setProperty, getPropertyValue, List.find?, h]
  | cons d rest ih =>
    by_cases hd : d.1 = p
    · rw [show setProperty (d :: rest) p v pr = (p, v, pr) :: rest from by
        simp [setProperty, hd]]
      rw [getPropertyValue_cons, getPropertyValue_cons]
      by_cases h : p = q
      · simp [h]
      · have hdq : ¬d.1 = q := by rw [hd]; exact h
        simp [h, hdq]
    · rw [show setProperty (d :: rest) p v pr = d :: setProperty rest p v pr from by
        simp [setProperty, hd]]
      rw [getPropertyValue_cons, getPropertyValue_cons, ih]
      by_cases hq : d.1 = q
      · have hpq : ¬p = q := fun hh => hd (by rw [hh]; exact hq)
        simp [hq, hpq]
      · simp [hq]

theorem getPropertyValue_applyDeclList (ws : List Decl) (cs : List Decl)
    (p : String) :
    getPropertyValue (applyDeclList ws cs) p
      = lastWriteFrom (getPropertyValue cs p) ws p := by
  induction ws generalizing cs with
  | nil => simp [applyDeclList, lastWriteFrom]
  | cons d rest ih =>
    simp only [applyDeclList, List.foldl_cons, lastWriteFrom] at ih ⊢
    rw [ih, getPropertyValue_setProperty]

theorem applyDeclList_append (a b : List Decl) (cs : List Decl) :
    applyDeclList (a ++ b) cs = applyDeclList b (applyDeclList a cs) := by
  simp [applyDeclList, List.foldl_append]

theorem ruleBranchLoop_matched (el : Elem) (decls : List Decl)
    (l : List String) (cs : List Decl) :
    ruleBranchLoop el decls l true cs = cs := by
  induction l with
  | nil => rfl
  | cons s rest ih => simp [ruleBranchLoop, ih]

theorem ruleBranchLoop_spec (el : Elem) (decls : List Decl)
    (l : List String) (cs : List Decl) :
    ruleBranchLoop el decls l false cs
      = if l.any (fun s => branchQualifies el s) then applyDeclList decls cs
        else cs := by
  induction l generalizing cs with
  | nil => simp [ruleBranchLoop]
  | cons s rest ih =>
    rw [ruleBranchLoop]
    simp only [Bool.not_false, Bool.true_and]
    by_cases h : branchQualifies el s = true
    · rw [if_pos (by simpa [branchQualifies] using h)]
      rw [ruleBranchLoop_matched]
      rw [if_pos (by simp [List.any_cons, h])]
    · rw [if_neg (by simpa [branchQualifies] using h)]
      rw [ih]
      have hs : branchQualifies el s = false := by
        cases hb : branchQualifies el s
        · rfl
        · exact absurd hb h
      simp [List.any_cons, hs]

theorem setPropertiesFromRule_spec (el : Elem) (cs : List Decl) (r : CSSRule) :
    setPropertiesFromRule el cs r = applyDeclList (specRuleWrites el r) cs := by
  cases r with
  | mediaRule media rules =>
    simp [setPropertiesFromRule, specRuleWrites, applyDeclList]
  | styleRule sel decls =>
    rw [setPropertiesFromRule, specRuleWrites, ruleBranchLoop_spec]
    by_cases h : ((splitSelectors sel).any (fun s => branchQualifies el s)) = true
    · rw [if_pos h, if_pos h]
    · rw [if_neg h, if_neg h]
      simp [applyDeclList]

theorem foldl_applyDeclList {α : Type} (g : α → List Decl) (rs : List α)
    (cs : List Decl) :
    rs.foldl (fun a r => applyDeclList (g r) a) cs
      = applyDeclList (rs.flatMap g) cs := by
  induction rs generalizing cs with
  | nil => simp [applyDeclList]
  | cons r rest ih =>
    simp only [List.foldl_cons, List.flatMap_cons, applyDeclList_append]
    exact ih _

theorem readStylesFromStyleSheet_spec (el : Elem) (cs : List Decl)
    (sheet : StyleSheet) :
    readStylesFromStyleSheet el cs sheet
      = applyDeclList (specSheetWrites el sheet) cs := by
  have hstep : ∀ (acc : List Decl) (rule : CSSRule),
      (match rule with
        | CSSRule.mediaRule media rules =>
          if "screen" ∈ media then
            rules.foldl (fun a r => setPropertiesFromRule el a r) acc
          else acc
        | CSSRule.styleRule sel decls =>
          setPropertiesFromRule el acc (CSSRule.styleRule sel decls))
      = applyDeclList
          (match rule with
            | CSSRule.mediaRule media rules =>
              if "screen" ∈ media then rules.flatMap (fun r => specRuleWrites el r)
              else []
            | CSSRule.styleRule sel decls =>
              specRuleWrites el (CSSRule.styleRule sel decls)) acc := by
    intro acc rule
    cases rule with
    | mediaRule media rules =>
      by_cases hm : "screen" ∈ media
      · simp only [hm, if_true]
        calc rules.foldl (fun a r => setPropertiesFromRule el a r) acc
            = rules.foldl (fun a r => applyDeclList (specRuleWrites el r) a) acc := by
              congr 1
              funext a r
              exact setPropertiesFromRule_spec el a r
          _ = applyDeclList (rules.flatMap (fun r => specRuleWrites el r)) acc :=
              foldl_applyDeclList _ rules acc
      · simp [hm, applyDeclList]
    | styleRule sel decls => exact setPropertiesFromRule_spec el acc _
  unfold readStylesFromStyleSheet specSheetWrites
  calc sheet.foldl _ cs
      = sheet.foldl (fun acc rule => applyDeclList
          (match rule with
            | CSSRule.mediaRule media rules =>
              if "screen" ∈ media then rules.flatMap (fun r => specRuleWrites el r)
              else []
            | CSSRule.styleRule sel decls =>
              specRuleWrites el (CSSRule.styleRule sel decls)) acc) cs := by
        congr 1
        funext acc rule
        exact hstep acc rule
    _ = _ := foldl_applyDeclList _ sheet cs

/-- C5 concrete element: a `div` (matches exactly the selector `div`),
inline `color: blue`, one document stylesheet with the single rule
`div, p { color: red }`. -/
def demoDiv : Elem :=
  { matchesRaw := fun s => some (s = "div"),
    inlineStyle := [("color", "blue", "")],
    docSheets := [[CSSRule.styleRule "div, p" [("color", "red", "")]]] }

/-- C5: `getComputedStyle` realizes exactly the fixed-order,
last-write-wins cascade — for every property, the computed value is the
last write in the sequence built from the default stylesheet's matching
rules (media-qualified rules only under `"screen"`), then each document
stylesheet in document order, then the inline style; and on the concrete
`div` element, the sheet rule `div, p { color: red }` combined with
inline `color: blue` yields `color: blue`. -/
theorem getComputedStyle_fixed_order_last_write_wins
    (defaultSheet : StyleSheet) (el : Elem) (p : String) :
    getPropertyValue (getComputedStyle defaultSheet el) p
      = lastWrite (specAllWrites defaultSheet el) p
    ∧ getPropertyValue (getComputedStyle [] demoDiv) "color" = some "blue" := by
  constructor
  · rw [getComputedStyle, readStylesFromStyleSheet_spec]
    rw [show (fun (a : List Decl) (sh : StyleSheet) => readStylesFromStyleSheet el a sh)
          = fun a sh => applyDeclList (specSheetWrites el sh) a from
        funext fun a => funext fun sh => readStylesFromStyleSheet_spec el a sh]
    rw [foldl_applyDeclList (fun sh => specSheetWrites el sh) el.docSheets]
    rw [← applyDeclList_append, ← applyDeclList_append]
    rw [getPropertyValue_applyDeclList]
    simp [specAllWrites, lastWrite, getPropertyValue, List.find?]
  · rfl

/-! Cookie-aware request interceptor: the `window.XMLHttpRequest` factory
wraps `open` and `send` of an underlying request object and persists
received `set-cookie` headers into the shared jar. -/

/-- An observable interaction with the underlying request object:
forwarding to the real `open`, toggling the restricted-header check,
setting a request header, and forwarding to the real `send` (which
transmits the headers current at that moment). -/
inductive XhrEff where
  | openCall : String → String → XhrEff
  | disableHeaderCheckSet : Bool → XhrEff
  | headerSet : String → String → XhrEff
  | sendCall : List (String × String) → XhrEff
  deriving DecidableEq

/-- State of one wrapped request: the remembered URL (`lastUrl`), the
request headers, the restricted-header-check toggle, and the ordered log
of interactions with the underlying object. -/
structure Xhr where
  lastUrl : String
  headers : List (String × String)
  headerCheckOff : Bool
  effects : List XhrEff
  deriving DecidableEq

def Xhr.init : Xhr := ⟨"", [], false, []⟩

/-- Set or overwrite a header value in an ordered header list. -/
def setKV : List (String × String) → String → String → List (String × String)
  | [], n, v => [(n, v)]
  | e :: rest, n, v => if e.1 = n then (n, v) :: rest else e :: setKV rest n v

/-- Modelled from the spec: the underlying request library's restricted
request-header names (ordinary header-name validation refuses these);
`cookie` is among them.  The library itself is an external collaborator
not present in the source slice. -/
def forbiddenHeaders : List String := ["cookie", "cookie2", "referer", "host"]

/-- Modelled from the spec: the underlying `setDisableHeaderCheck`
switches restricted-header validation off or on. -/
def setDisableHeaderCheck (x : Xhr) (b : Bool) : Xhr :=
  { x with headerCheckOff := b,
           effects := x.effects ++ [XhrEff.disableHeaderCheckSet b] }

/-- Modelled from the spec: the underlying `setRequestHeader` stores the
header unless the name is restricted while validation is on. -/
def setRequestHeader (x : Xhr) (n v : String) : Xhr :=
  if x.headerCheckOff ∨ n ∉ forbiddenHeaders then
    { x with headers := setKV x.headers n v,
             effects := x.effects ++ [XhrEff.headerSet n v] }
  else x

/-- Modelled from the spec: the shared cookie jar, an external
collaborator.  It stores `(url, cookie-pair)` entries; reading joins the
pairs stored for the URL with `"; "`; writing parses the leading
`key=value` pair of a `set-cookie` string and stores it for the URL. -/
structure CookieJar where
  entries : List (String × String)
  deriving DecidableEq

def CookieJar.getCookieString (j : CookieJar) (url : String) : String :=
  String.intercalate "; " ((j.entries.filter (fun e => e.1 = url)).map (fun e => e.2))

/-- The leading `key=value` pair of a `set-cookie` string: the characters
before the first `;`. -/
def cookiePair (cookieStr : String) : String :=
  String.mk (cookieStr.toList.takeWhile (fun c => c ≠ ';'))

def CookieJar.setCookie (j : CookieJar) (cookieStr url : String) : CookieJar :=
  ⟨j.entries ++ [(url, cookiePair cookieStr)]⟩

/-- `fixUrlForBuggyXhr`: rewrite a leading `file:///<drive>:` to
`file://<drive>:` (the regex `^file:\\/\\/\\/([a-zA-Z]:)`), leaving every
other URL unchanged. -/
def fixUrlForBuggyXhr (url : String) : String :=
  match url.toList with
  | 'f' :: 'i' :: 'l' :: 'e' :: ':' :: '/' :: '/' :: '/' :: c :: ':' :: rest =>
    if c.isAlpha then
      String.mk ('f' :: 'i' :: 'l' :: 'e' :: ':' :: '/' :: '/' :: c :: ':' :: rest)
    else url
  | _ => url

/-- The wrapped `open(method, url, ...)`: resolve the URL against the
owning document's URL (`resolveHref`, an external utility, is passed in
abstractly), apply `fixUrlForBuggyXhr`, remember the result in `lastUrl`,
and forward the corrected URL to the real open. -/
def xhrOpen (resolve : String → String → String) (docUrl : String)
    (x : Xhr) (method url : String) : Xhr :=
  let u := fixUrlForBuggyXhr (resolve docUrl url)
  { x with lastUrl := u, effects := x.effects ++ [XhrEff.openCall method u] }

/-- The wrapped `send(data)`: read the cookie string for the remembered
URL from the jar; if it is non-empty, disable the header check, set the
`cookie` header, re-enable the check; then forward to the real send
(the `readystatechange` cookie-persisting listener it also attaches is
modelled by `setReceivedCookies` below, invoked when a response
arrives). -/
def xhrSend (jar : CookieJar) (x : Xhr) : Xhr :=
  let cookieStr := jar.getCookieString x.lastUrl
  let x1 :=
    if cookieStr ≠ "" then
      setDisableHeaderCheck
        (setRequestHeader (setDisableHeaderCheck x true) "cookie" cookieStr)
        false
    else x
  { x1 with effects := x1.effects ++ [XhrEff.sendCall x1.headers] }

/-- The value `getResponseHeader("set-cookie")` can produce: absent, a
single string, or an array of strings. -/
inductive SetCookieHeader where
  | missing : SetCookieHeader
  | one : String → SetCookieHeader
  | many : List String → SetCookieHeader

/-- The `setReceivedCookies` readystatechange listener: when the request
reaches `HEADERS_RECEIVED` (readyState 2), a truthy `set-cookie` response
header is normalized to a list and each value is persisted into the jar
scoped to the remembered URL (then the listener removes itself). -/
def setReceivedCookies (jar : CookieJar) (lastUrl : String) (readyState : Nat)
    (hdr : SetCookieHeader) : CookieJar :=
  if readyState = 2 then
    match hdr with
    | SetCookieHeader.missing => jar
    | SetCookieHeader.one s =>
      if s = "" then jar else jar.setCookie s lastUrl
    | SetCookieHeader.many l => l.foldl (fun j s => j.setCookie s lastUrl) jar
  else jar

theorem mem_setKV (hs : List (String × String)) (n v : String) :
    (n, v) ∈ setKV hs n v := by
  induction hs with
  | nil => simp [setKV]
  | cons e rest ih =>
    by_cases h : e.1 = n
    · simp [setKV, h]
    · simp [setKV, h, ih]

/-- C8: the wrapped open stores the resolved-and-corrected URL as the
remembered URL and forwards exactly that URL to the underlying open;
`fixUrlForBuggyXhr` rewrites any `file:///<drive>:` prefix with an ASCII
letter drive to `file://<drive>:`, and concretely sends
`file:///C:/test.html` to `file://C:/test.html`. -/
theorem open_resolves_fixes_remembers_and_forwards
    (resolve : String → String → String) (docUrl method url : String) (x : Xhr)
    (c : Char) (rest : List Char) (hc : c.isAlpha = true) :
    (xhrOpen resolve docUrl x method url).lastUrl
        = fixUrlForBuggyXhr (resolve docUrl url)
    ∧ (xhrOpen resolve docUrl x method url).effects
        = x.effects
          ++ [XhrEff.openCall method (fixUrlForBuggyXhr (resolve docUrl url))]
    ∧ fixUrlForBuggyXhr
        (String.mk ('f' :: 'i' :: 'l' :: 'e' :: ':' :: '/' :: '/' :: '/'
          :: c :: ':' :: rest))
        = String.mk ('f' :: 'i' :: 'l' :: 'e' :: ':' :: '/' :: '/' :: c :: ':' :: rest)
    ∧ fixUrlForBuggyXhr "file:///C:/test.html" = "file://C:/test.html" := by
  refine ⟨rfl, rfl, ?_, by rfl⟩
  show (match ('f' :: 'i' :: 'l' :: 'e' :: ':' :: '/' :: '/' :: '/'
      :: c :: ':' :: rest : List Char) with
    | 'f' :: 'i' :: 'l' :: 'e' :: ':' :: '/' :: '/' :: '/' :: c :: ':' :: rest =>
      if c.isAlpha then
        String.mk ('f' :: 'i' :: 'l' :: 'e' :: ':' :: '/' :: '/' :: c :: ':' :: rest)
      else String.mk ('f' :: 'i' :: 'l' :: 'e' :: ':' :: '/' :: '/' :: '/'
        :: c :: ':' :: rest)
    | _ => String.mk ('f' :: 'i' :: 'l' :: 'e' :: ':' :: '/' :: '/' :: '/'
      :: c :: ':' :: rest)) = _
  simp [hc]

/-- C8 witness: the open wrapper applied concretely, with the drive
letter `C`. -/
theorem open_resolves_fixes_witness :
    (Char.isAlpha 'C' = true)
    ∧ ((xhrOpen (fun _ u => u) "file:///C:/" Xhr.init "GET" "file:///C:/test.html").lastUrl
          = fixUrlForBuggyXhr ((fun (_ u : String) => u) "file:///C:/" "file:///C:/test.html")
      ∧ (xhrOpen (fun _ u => u) "file:///C:/" Xhr.init "GET" "file:///C:/test.html").effects
          = Xhr.init.effects
            ++ [XhrEff.openCall "GET"
                (fixUrlForBuggyXhr ((fun (_ u : String) => u) "file:///C:/" "file:///C:/test.html"))]
      ∧ fixUrlForBuggyXhr
          (String.mk ('f' :: 'i' :: 'l' :: 'e' :: ':' :: '/' :: '/' :: '/'
            :: 'C' :: ':' :: "/test.html".toList))
          = String.mk ('f' :: 'i' :: 'l' :: 'e' :: ':' :: '/' :: '/'
            :: 'C' :: ':' :: "/test.html".toList)
      ∧ fixUrlForBuggyXhr "file:///C:/test.html" = "file://C:/test.html") :=
  ⟨by decide,
   open_resolves_fixes_remembers_and_forwards (fun _ u => u) "file:///C:/" "GET"
     "file:///C:/test.html" Xhr.init 'C' "/test.html".toList (by decide)⟩

/-- C6: when the jar holds a non-empty cookie string for the remembered
URL, `send` disables the restricted-header check, sets the `cookie`
request header to exactly that string, re-enables the check, and only
then forwards to the underlying send, whose transmitted headers contain
the cookie header; `cookie` is indeed a restricted header name. -/
theorem send_injects_cookie_header (jar : CookieJar) (x : Xhr) (s : String)
    (hget : jar.getCookieString x.lastUrl = s) (hne : s ≠ "") :
    (xhrSend jar x).effects
      = x.effects
        ++ [XhrEff.disableHeaderCheckSet true, XhrEff.headerSet "cookie" s,
            XhrEff.disableHeaderCheckSet false,
            XhrEff.sendCall (setKV x.headers "cookie" s)]
    ∧ ("cookie", s) ∈ (xhrSend jar x).headers
    ∧ "cookie" ∈ forbiddenHeaders := by
  have hx : xhrSend jar x
      = { lastUrl := x.lastUrl,
          headers := setKV x.headers "cookie" s,
          headerCheckOff := false,
          effects := x.effects
            ++ [XhrEff.disableHeaderCheckSet true, XhrEff.headerSet "cookie" s,
                XhrEff.disableHeaderCheckSet false,
                XhrEff.sendCall (setKV x.headers "cookie" s)] } := by
    simp [xhrSend, hget, hne, setDisableHeaderCheck, setRequestHeader]
  rw [hx]
  exact ⟨rfl, mem_setKV x.headers "cookie" s, by simp [forbiddenHeaders]⟩

/-- The URL used by the concrete cookie round-trip scenario. -/
def demoUrl : String := "http://example.test/"

/-- First request of the scenario, opened to `demoUrl` (the resolver is
the identity on an already-absolute URL). -/
def demoXhr1 : Xhr := xhrOpen (fun _ u => u) demoUrl Xhr.init "GET" demoUrl

/-- The jar after the first request's response, carrying
`set-cookie: a=1`, reached `HEADERS_RECEIVED`. -/
def demoJar : CookieJar :=
  setReceivedCookies ⟨[]⟩ demoXhr1.lastUrl 2 (SetCookieHeader.one "a=1")

/-- Second request of the scenario, opened to the same URL from the same
window. -/
def demoXhr2 : Xhr := xhrOpen (fun _ u => u) demoUrl Xhr.init "GET" demoUrl

/-- C6 witness: after a response to `demoUrl` carried `set-cookie: a=1`
and was persisted, a subsequent request opened to the same URL sends
header `cookie: a=1`. -/
theorem send_injects_cookie_header_witness :
    (demoJar.getCookieString demoXhr2.lastUrl = "a=1")
    ∧ ("a=1" ≠ "")
    ∧ ((xhrSend demoJar demoXhr2).effects
        = demoXhr2.effects
          ++ [XhrEff.disableHeaderCheckSet true, XhrEff.headerSet "cookie" "a=1",
              XhrEff.disableHeaderCheckSet false,
              XhrEff.sendCall (setKV demoXhr2.headers "cookie" "a=1")]
      ∧ ("cookie", "a=1") ∈ (xhrSend demoJar demoXhr2).headers
      ∧ "cookie" ∈ forbiddenHeaders) :=
  ⟨by decide, by decide,
   send_injects_cookie_header demoJar demoXhr2 "a=1" (by decide) (by decide)⟩

/-- C10: when the jar yields an empty cookie string for the remembered
URL, `send` sets no cookie header and leaves the header state untouched,
forwarding straight to the underlying send; and the header-check toggle
is exercised by `send` only when a non-empty cookie string is
injected. -/
theorem send_empty_cookie_sets_no_header (jar : CookieJar) (x : Xhr)
    (h : jar.getCookieString x.lastUrl = "") :
    (xhrSend jar x).headers = x.headers
    ∧ (xhrSend jar x).effects = x.effects ++ [XhrEff.sendCall x.headers]
    ∧ ∀ (jar2 : CookieJar) (x2 : Xhr) (b : Bool),
        XhrEff.disableHeaderCheckSet b ∈ (xhrSend jar2 x2).effects →
        XhrEff.disableHeaderCheckSet b ∈ x2.effects
        ∨ jar2.getCookieString x2.lastUrl ≠ "" := by
  refine ⟨by simp [xhrSend, h], by simp [xhrSend, h], ?_⟩
  intro jar2 x2 b hmem
  by_cases h2 : jar2.getCookieString x2.lastUrl = ""
  · left
    simp only [xhrSend, h2, ne_eq, not_true_eq_false, if_false,
      List.mem_append, List.mem_singleton] at hmem
    rcases hmem with hmem | hmem
    · exact hmem
    · exact absurd hmem (by simp)
  · right
    exact h2

/-- C10 witness: the empty-jar case at a concrete request, plus the
toggle-only-on-injection clause instantiated. -/
theorem send_empty_cookie_sets_no_header_witness :
    ((⟨[]⟩ : CookieJar).getCookieString Xhr.init.lastUrl = "")
    ∧ ((xhrSend ⟨[]⟩ Xhr.init).headers = Xhr.init.headers
      ∧ (xhrSend ⟨[]⟩ Xhr.init).effects
          = Xhr.init.effects ++ [XhrEff.sendCall Xhr.init.headers]
      ∧ ∀ (jar2 : CookieJar) (x2 : Xhr) (b : Bool),
          XhrEff.disableHeaderCheckSet b ∈ (xhrSend jar2 x2).effects →
          XhrEff.disableHeaderCheckSet b ∈ x2.effects
          ∨ jar2.getCookieString x2.lastUrl ≠ "") :=
  ⟨by decide, send_empty_cookie_sets_no_header ⟨[]⟩ Xhr.init (by decide)⟩

end Jsdom
